import Mathlib

/-!
Verification development for the warp-review pull-request reviewer.

The definitions in this file are shallow embeddings of the JavaScript source:
`src/context.js` (diff line mapping, snippet extraction, context budgeting),
`src/review.js` (comment validation, retry loop, malformed-response handling,
round supersession), `src/prompt.js` (previous-feedback serialization) and
`src/outcome.js` (active-round lookup).  JavaScript strings become Lean
`String`s, nullable values become `Option`, JS falsiness of strings/numbers is
modelled explicitly, and the stateful packing/retry loops become structural
recursions.  Theorems follow, one per specification claim.
-/

namespace WarpReview

/-- JS truthiness of a nullable string: `null`/`undefined` and `""` are falsy. -/
def truthy : Option String → Bool
  | none => false
  | some s => s ≠ ""

/-- JS `x || dflt` for a nullable string `x`. -/
def orElseStr (o : Option String) (dflt : String) : String :=
  match o with
  | none => dflt
  | some s => if s = "" then dflt else s

/-- JS `String.prototype.split(sep)` for a one-character separator, on the
character list: separator occurrences delimit the (possibly empty) fields. -/
def splitCh (sep : Char) : List Char → List (List Char)
  | [] => [[]]
  | c :: rest =>
    if c = sep then [] :: splitCh sep rest
    else
      match splitCh sep rest with
      | l :: ls => (c :: l) :: ls
      | [] => [[c]]

/-- `patch.split('\n')` as a list of line strings. -/
def splitLines (s : String) : List String := (splitCh '\n' s.data).map String.mk

/-- JS `Array.prototype.join(sep)`: the fields joined with the separator. -/
def joinSep (sep : String) : List String → String
  | [] => ""
  | [x] => x
  | x :: y :: ys => x ++ sep ++ joinSep sep (y :: ys)

/-- JS `s.startsWith(c)` for a one-character prefix. -/
def startsWithCh (s : String) (c : Char) : Bool :=
  match s.data with
  | d :: _ => d = c
  | [] => false

/-- Value of a non-empty digit run, as `parseInt(…, 10)` computes it. -/
def digitsToNat (ds : List Char) : Nat :=
  ds.foldl (fun n c => 10 * n + (c.toNat - 48)) 0

/-- Greedy `\d+`: one or more leading digits, returning the value and the rest. -/
def parseNat1 (cs : List Char) : Option (Nat × List Char) :=
  let ds := cs.takeWhile Char.isDigit
  if ds.isEmpty then none else some (digitsToNat ds, cs.dropWhile Char.isDigit)

/-- The optional group `(?:,\d+)?`: consumed when a comma followed by digits is
present, otherwise the input is left as is. -/
def skipCommaDigits (cs : List Char) : List Char :=
  match cs with
  | ',' :: rest =>
    if (rest.takeWhile Char.isDigit).isEmpty then ',' :: rest
    else rest.dropWhile Char.isDigit
  | other => other

/-- `raw.match(/^@@ -\d+(?:,\d+)? \+(\d+)(?:,\d+)? @@/)` from `context.js`,
returning `parseInt(m[1], 10)` — the new-file start line of the hunk. -/
def matchHunkHeader (s : String) : Option Nat :=
  match s.data with
  | '@' :: '@' :: ' ' :: '-' :: rest =>
    match parseNat1 rest with
    | none => none
    | some (_, rest1) =>
      match skipCommaDigits rest1 with
      | ' ' :: '+' :: rest3 =>
        match parseNat1 rest3 with
        | none => none
        | some (c, rest4) =>
          match skipCommaDigits rest4 with
          | ' ' :: '@' :: '@' :: _ => some c
          | _ => none
      | _ => none
  | _ => none

/-- Loop body of `getValidLines` (`context.js`): walk the patch lines carrying
the new-file cursor; the result lists the registered line numbers in order. -/
def validLinesAux : List String → Nat → List Nat
  | [], _ => []
  | raw :: rest, cur =>
    match matchHunkHeader raw with
    | some c => validLinesAux rest c
    | none =>
      if startsWithCh raw '-' then validLinesAux rest cur
      else if startsWithCh raw '\\' then validLinesAux rest cur
      else cur :: validLinesAux rest (cur + 1)

/-- `getValidLines(patch)` from `context.js`.  The JS `Set` is modelled as the
list of registered line numbers; membership is the `Set.has` of the source. -/
def getValidLines : Option String → List Nat
  | none => []
  | some s => if s = "" then [] else validLinesAux (splitLines s) 0

/-- Strip one leading `+` from an addition line (`raw.startsWith('+') ?
raw.slice(1) : raw`). -/
def stripPlus (raw : String) : String :=
  if startsWithCh raw '+' then String.mk raw.data.tail else raw

/-- Loop body of `extractSnippet` (`context.js`): the line-numbered sequence of
kept patch lines, additions stripped of their `+`. -/
def patchLinesAux : List String → Nat → List (Nat × String)
  | [], _ => []
  | raw :: rest, cur =>
    match matchHunkHeader raw with
    | some c => patchLinesAux rest c
    | none =>
      if startsWithCh raw '-' then patchLinesAux rest cur
      else if startsWithCh raw '\\' then patchLinesAux rest cur
      else (cur, stripPlus raw) :: patchLinesAux rest (cur + 1)

/-- `extractSnippet(patch, targetLine)` from `context.js`: up to three mapped
lines centred on the target, clipped at the ends of the mapped sequence. -/
def extractSnippet (patch : Option String) (targetLine : Nat) : Option String :=
  match patch with
  | none => none
  | some s =>
    if s = "" then none else
    let patchLines := patchLinesAux (splitLines s) 0
    match patchLines.findIdx? (fun p => p.1 == targetLine) with
    | none => none
    | some idx =>
      let start := idx - 1
      let stop := min patchLines.length (idx + 2)
      some (joinSep "\n" (((patchLines.drop start).take (stop - start)).map Prod.snd))

/-- `estimateTokens(text)` from `context.js`: `Math.ceil(text.length / 3)`. -/
def estimateTokens (text : String) : Nat := (text.length + 2) / 3

/-- A changed file as consumed by `buildContext` (`context.js`). -/
structure ChangedFile where
  filename : String
  status : String
  patch : Option String
  content : Option String
deriving DecidableEq

/-- `buildManifest(files)` from `context.js`. -/
def buildManifest (files : List ChangedFile) : String :=
  joinSep "\n"
    (["## All changed files in this PR", ""]
      ++ files.map (fun f => "- `" ++ f.filename ++ "` (" ++ f.status ++ ")")
      ++ ["", "---", ""])

/-- `file.filename.split('.').pop() || ''`. -/
def extOf (filename : String) : String :=
  ((splitCh '.' filename.data).map String.mk).getLastD ""

/-- `buildFileSection(file, includeFullContent)` from `context.js`. -/
def buildFileSection (f : ChangedFile) (includeFullContent : Bool) : String :=
  let diffText := orElseStr f.patch "(no diff available)"
  let base := "## File: " ++ f.filename ++ " (" ++ f.status ++ ")\n\n### Diff\n```diff\n"
      ++ diffText ++ "\n```\n"
  if includeFullContent && truthy f.content then
    base ++ "\n### Full file content\n```" ++ extOf f.filename ++ "\n" ++ f.content.getD ""
      ++ "\n```\n"
  else if truthy f.content then
    base ++ "\n### Full file content\n(full content omitted — file too large)\n"
  else
    base

/-- Insert into a sorted list, after every element that strictly precedes the
inserted one (`lt b a`): the placement a stable sort gives the element. -/
def sortInsert {α : Type} (lt : α → α → Bool) (a : α) : List α → List α
  | [] => [a]
  | b :: bs => if lt b a then b :: sortInsert lt a bs else a :: b :: bs

/-- Stable sort by the strict precedence test `lt`, as JS
`Array.prototype.sort` with a consistent comparator: elements the comparator
ties keep their original order. -/
def stableSort {α : Type} (lt : α → α → Bool) : List α → List α
  | [] => []
  | x :: xs => sortInsert lt x (stableSort lt xs)

/-- `estimateTokens(a.patch || '')` — the sort key of `buildContext`. -/
def diffSizeKey (f : ChangedFile) : Nat := estimateTokens (orElseStr f.patch "")

/-- `[...files].sort((a, b) => estimateTokens(a.patch||'') - estimateTokens(b.patch||''))`:
a stable ascending sort on the diff-size estimate. -/
def sortByDiff (files : List ChangedFile) : List ChangedFile :=
  stableSort (fun a b => diffSizeKey a < diffSizeKey b) files

/-- One element of the pre-computed `fileCosts` array of `buildContext`, with
the position `idx` of the file in the sorted order recorded for bookkeeping. -/
structure FileCost where
  idx : Nat
  file : ChangedFile
  diffSection : String
  fullSection : String
  diffTokens : Nat
  fullTokens : Nat
deriving DecidableEq

/-- The `fileCosts` array of `buildContext` (`context.js`). -/
def mkCosts (sorted : List ChangedFile) : List FileCost :=
  sorted.enum.map (fun p =>
    { idx := p.1
      file := p.2
      diffSection := buildFileSection p.2 false
      fullSection :=
        if truthy p.2.content then buildFileSection p.2 true else buildFileSection p.2 false
      diffTokens := estimateTokens (buildFileSection p.2 false)
      fullTokens := estimateTokens
        (if truthy p.2.content then buildFileSection p.2 true else buildFileSection p.2 false) })

/-- A chunk entry: a file cost record together with the flag recording whether
its full section (`true`) or its diff-only section (`false`) was pushed. -/
def entryText (e : FileCost × Bool) : String :=
  if e.2 then e.1.fullSection else e.1.diffSection

/-- Token estimate of a chunk entry as accounted by the packing loop. -/
def entryTokens (e : FileCost × Bool) : Nat :=
  if e.2 then e.1.fullTokens else e.1.diffTokens

/-- `manifest + currentSections.join('\n---\n\n')`. -/
def renderChunk (manifest : String) (sections : List String) : String :=
  manifest ++ joinSep "\n---\n\n" sections

/-- Token accounting of a chunk as `buildContext` maintains it in
`currentTokens`: the manifest estimate plus the pushed section estimates. -/
def chunkCost (mTok : Nat) (ch : List (FileCost × Bool)) : Nat :=
  mTok + (ch.map entryTokens).sum

/-- The packing loop of `buildContext` (`context.js`).  Chunks are kept as
entry lists (rendered to strings by `buildContext`); the second component
lists the `idx` of every file counted by `truncatedCount++`, in order. -/
def packLoop (budget : Int) (mTok : Nat) :
    List FileCost → List (FileCost × Bool) → Nat → List (List (FileCost × Bool)) × List Nat
  | [], cur, _ => (if cur.isEmpty then [] else [cur], [])
  | c :: rest, cur, curTok =>
    if (curTok : Int) + c.fullTokens ≤ budget then
      packLoop budget mTok rest (cur ++ [(c, true)]) (curTok + c.fullTokens)
    else if (curTok : Int) + c.diffTokens ≤ budget then
      let r := packLoop budget mTok rest (cur ++ [(c, false)]) (curTok + c.diffTokens)
      (r.1, (if truthy c.file.content then [c.idx] else []) ++ r.2)
    else
      let flushed : List (List (FileCost × Bool)) := if cur.isEmpty then [] else [cur]
      let cur2 : List (FileCost × Bool) := if cur.isEmpty then cur else []
      let curTok2 : Nat := if cur.isEmpty then curTok else mTok
      if (curTok2 : Int) + c.fullTokens ≤ budget then
        let r := packLoop budget mTok rest (cur2 ++ [(c, true)]) (curTok2 + c.fullTokens)
        (flushed ++ r.1, r.2)
      else if (curTok2 : Int) + c.diffTokens ≤ budget then
        let r := packLoop budget mTok rest (cur2 ++ [(c, false)]) (curTok2 + c.diffTokens)
        (flushed ++ r.1, (if truthy c.file.content then [c.idx] else []) ++ r.2)
      else
        let r := packLoop budget mTok rest cur2 curTok2
        (flushed ++ r.1, c.idx :: r.2)

/-- `buildContext(files, config, { systemTokens })` from `context.js`: the
chunk strings and `truncatedCount`. -/
def buildContext (files : List ChangedFile) (systemTokens : Nat) : List String × Nat :=
  let budget : Int := (200000 : Int) - systemTokens - 4000
  let manifest := buildManifest files
  let manifestTokens := estimateTokens manifest
  let r := packLoop budget manifestTokens (mkCosts (sortByDiff files)) [] manifestTokens
  let chunks := r.1.map (fun ch => renderChunk manifest (ch.map entryText))
  if chunks.isEmpty then ([manifest ++ "(all files too large for review)"], r.2.length)
  else (chunks, r.2.length)

/-- The raw packing-loop result inside `buildContext files systemTokens`,
named so the theorems can speak about chunk structure before rendering. -/
def packResult (files : List ChangedFile) (systemTokens : Nat) :
    List (List (FileCost × Bool)) × List Nat :=
  packLoop ((200000 : Int) - systemTokens - 4000) (estimateTokens (buildManifest files))
    (mkCosts (sortByDiff files)) [] (estimateTokens (buildManifest files))

/-- Packing loop written from the specification's words, for comparison with
`packLoop`: for each file, prefer diff plus full content if it fits the current
chunk; else a diff-only section (counting the file truncated when it had
content); else close the current chunk (emitting it if non-empty) and retry
full-then-diff-only in a fresh chunk; if the diff-only section does not fit
even a fresh chunk, drop the file and count it truncated. -/
def specPack (budget : Int) (mTok : Nat) :
    List FileCost → List (FileCost × Bool) → List (List (FileCost × Bool)) × List Nat
  | [], cur => (if cur = [] then [] else [cur], [])
  | c :: rest, cur =>
    if (chunkCost mTok (cur ++ [(c, true)]) : Int) ≤ budget then
      specPack budget mTok rest (cur ++ [(c, true)])
    else if (chunkCost mTok (cur ++ [(c, false)]) : Int) ≤ budget then
      let r := specPack budget mTok rest (cur ++ [(c, false)])
      (r.1, (if truthy c.file.content then [c.idx] else []) ++ r.2)
    else
      let flushed : List (List (FileCost × Bool)) := if cur = [] then [] else [cur]
      if (chunkCost mTok [(c, true)] : Int) ≤ budget then
        let r := specPack budget mTok rest [(c, true)]
        (flushed ++ r.1, r.2)
      else if (chunkCost mTok [(c, false)] : Int) ≤ budget then
        let r := specPack budget mTok rest [(c, false)]
        (flushed ++ r.1, (if truthy c.file.content then [c.idx] else []) ++ r.2)
      else
        let r := specPack budget mTok rest []
        (flushed ++ r.1, c.idx :: r.2)

/-- `buildContext` written from the specification's words: sort ascending by
diff estimate, pack with the `specPack` fallback sequence, render each chunk
as manifest plus its sections, and emit a single manifest-plus-placeholder
chunk when no file fit anywhere. -/
def specBuildContext (files : List ChangedFile) (systemTokens : Nat) : List String × Nat :=
  let budget : Int := (200000 : Int) - systemTokens - 4000
  let manifest := buildManifest files
  let r := specPack budget (estimateTokens manifest) (mkCosts (sortByDiff files)) []
  if r.1 = [] then ([manifest ++ "(all files too large for review)"], r.2.length)
  else (r.1.map (fun ch => renderChunk manifest (ch.map entryText)), r.2.length)

/-- A model-proposed comment as `review.js` receives it: each field may be
absent, and JS falsiness (`''`, `0`) decides the validation guards. -/
structure RawComment where
  file : Option String
  line : Option Int
  body : Option String
deriving DecidableEq

/-- JS truthiness of a nullable number: `null`/`undefined` and `0` are falsy. -/
def truthyInt : Option Int → Bool
  | none => false
  | some n => n ≠ 0

/-- `filePatches.get(c.file)`: `Map` lookup, `undefined` when absent (and the
stored patch may itself be null). -/
def patchOf (filePatches : List (String × Option String)) (file : String) : Option String :=
  match filePatches.lookup file with
  | some p => p
  | none => none

/-- `validLines.has(c.line)` where the `Set` is modelled by a list. -/
def hasLine (valid : List Nat) (line : Int) : Bool :=
  valid.any (fun m => (m : Int) == line)

/-- The `validComments` filter of `review.js` (step 12): keep a comment iff
`c.file`, `c.line` and `c.body` are truthy and `c.line` is a valid line of its
file's patch. -/
def validCommentsFilter (comments : List RawComment)
    (filePatches : List (String × Option String)) : List RawComment :=
  comments.filter (fun c =>
    truthy c.file && truthyInt c.line && truthy c.body &&
      hasLine (getValidLines (patchOf filePatches (c.file.getD ""))) (c.line.getD 0))

/-- One prior-round comment as collected by `review.js` step 4 for the prompt. -/
structure FeedbackComment where
  file : String
  line : Nat
  category : Option String
  body : String
deriving DecidableEq

/-- One prior round's feedback entry (`previousFeedback` element). -/
structure FeedbackRound where
  round : Nat
  sha : Option String
  comments : List FeedbackComment
deriving DecidableEq

/-- `MAX_PREV_FEEDBACK_CHARS` from `prompt.js`. -/
def maxPrevFeedbackChars : Nat := 4000

/-- `### Round ${round} (${(sha || '').slice(0, 7)})`. -/
def roundHeader (r : FeedbackRound) : String :=
  "### Round " ++ toString r.round ++ " (" ++ String.mk ((orElseStr r.sha "").data.take 7) ++ ")"

/-- One serialized comment line of `buildPreviousFeedbackSection`. -/
def commentLine (c : FeedbackComment) : String :=
  "- `" ++ c.file ++ ":" ++ toString c.line ++ "` (" ++ orElseStr c.category "other"
    ++ "): \"" ++ c.body ++ "\""

/-- The fixed introductory lines of `buildPreviousFeedbackSection`. -/
def feedbackIntro : List String :=
  ["## Previous review rounds", "",
   "You have reviewed this PR before. Below are your comments from previous rounds.",
   "The author pushed changes after each round to address your feedback.", "",
   "CRITICAL: Do NOT contradict or re-raise issues from previous rounds. If the author",
   "correctly addressed a previous comment, that issue is RESOLVED — do not suggest",
   "reversing it. Only flag genuinely NEW issues not covered below.", ""]

/-- The round loop of `buildPreviousFeedbackSection` (`prompt.js`): serialize
rounds in the given order, appending the truncation marker and stopping as
soon as the joined text exceeds the character budget.  The second component
records the round numbers actually serialized, in order. -/
def feedbackLoop : List FeedbackRound → List String → List String × List Nat
  | [], lines => (lines, [])
  | r :: rest, lines =>
    if maxPrevFeedbackChars <
        (joinSep "\n" (lines ++ [roundHeader r] ++ r.comments.map commentLine ++ [""])).length
    then
      (lines ++ [roundHeader r] ++ r.comments.map commentLine ++ [""] ++
        ["(earlier rounds truncated)"], [r.round])
    else
      ((feedbackLoop rest (lines ++ [roundHeader r] ++ r.comments.map commentLine ++ [""])).1,
        r.round ::
          (feedbackLoop rest (lines ++ [roundHeader r] ++ r.comments.map commentLine ++ [""])).2)

/-- `buildPreviousFeedbackSection(previousFeedback)` from `prompt.js`. -/
def buildPreviousFeedbackSection (previousFeedback : List FeedbackRound) : String :=
  if previousFeedback.isEmpty then ""
  else joinSep "\n" (feedbackLoop previousFeedback feedbackIntro).1 ++ "\n"

/-- A round group of a run as the telemetry store returns it: its `round`
option and the outcomes recorded against it so far. -/
structure RoundRec where
  number : Nat
  outcomes : List String
deriving DecidableEq

/-- The descending comparator `(a, b) => b.opts.round - a.opts.round` as the
strict precedence test of a stable sort. -/
def roundDesc (a b : RoundRec) : Bool := b.number < a.number

/-- `rounds.sort((a, b) => b.opts.round - a.opts.round)[0]` from `review.js`
step 4: the stored rounds sorted by descending round number, then the first. -/
def selectPrevRound (rounds : List RoundRec) : Option RoundRec :=
  (stableSort roundDesc rounds).head?

/-- The active-round lookup of `trackOutcome` (`outcome.js`): descending sort,
then the first round with no `Superseded` outcome. -/
def activeRound (rounds : List RoundRec) : Option RoundRec :=
  (stableSort roundDesc rounds).find? (fun r => !(r.outcomes.contains "Superseded"))

/-- `outcome(prevRound.id, 'Superseded')`: the store appends the outcome to the
round it identifies. -/
def markSuperseded (rounds : List RoundRec) (n : Nat) : List RoundRec :=
  rounds.map (fun r =>
    if r.number = n then { r with outcomes := r.outcomes ++ ["Superseded"] } else r)

/-- Modelled from the spec: the telemetry store persists a run's rounds across
review events (the store itself is an external collaborator; only its
query/command calls appear in `review.js`).  One review event performs the
supersession step of `review` (`review.js` step 4) followed by the round
creation of step 10: pick `rounds.sort(desc)[0]`, mark it `Superseded`, and
create the round numbered one higher; with no prior round, create round 1. -/
def reviewEvent (rounds : List RoundRec) : List RoundRec :=
  match selectPrevRound rounds with
  | some prev => markSuperseded rounds prev.number ++ [⟨prev.number + 1, []⟩]
  | none => rounds ++ [⟨1, []⟩]

/-- The store state after `n` sequential review events on one PR, starting
from no rounds. -/
def runEvents : Nat → List RoundRec
  | 0 => []
  | n + 1 => reviewEvent (runEvents n)

/-- The store contents the specification predicts after `n` review events:
rounds `1..n` in creation order, every round but the last superseded exactly
once. -/
def roundsAfter (n : Nat) : List RoundRec :=
  (List.range' 1 n).map (fun k => ⟨k, if k < n then ["Superseded"] else []⟩)

/-- An error thrown by the model client, as `llmWithRetry` inspects it. -/
structure LlmErr where
  status : Option Int
  code : Option String
deriving DecidableEq

/-- The `isRetryable` test of `llmWithRetry` (`review.js`): 429/529, any
status ≥ 500, or a connection/timeout error code. -/
def isRetryable (e : LlmErr) : Bool :=
  e.status == some 429 || e.status == some 529 ||
    (match e.status with
     | some s => 500 ≤ s
     | none => false) ||
    e.code == some "ECONNREFUSED" || e.code == some "ETIMEDOUT" || e.code == some "ENOTFOUND"

/-- `Math.pow(2, attempt) * 1000` — the backoff delay before the next attempt. -/
def retryDelay (attempt : Nat) : Nat := 2 ^ attempt * 1000

/-- The attempt loop of `llmWithRetry` (`review.js`), driven by an oracle
giving each attempt's outcome.  Returns the overall result (`none` models the
JS fall-through `undefined` when `maxRetries = 0`) and the list of backoff
delays slept, in order. -/
def retryGo {ρ : Type} (oracle : Nat → Except LlmErr ρ) (maxRetries : Nat) :
    Nat → Nat → Option (Except LlmErr ρ) × List Nat
  | 0, _ => (none, [])
  | remaining + 1, attempt =>
    match oracle attempt with
    | .ok r => (some (.ok r), [])
    | .error e =>
      if !isRetryable e || attempt == maxRetries - 1 then (some (.error e), [])
      else
        let next := retryGo oracle maxRetries remaining (attempt + 1)
        (next.1, retryDelay attempt :: next.2)

/-- `llmWithRetry(anthropic, params, maxRetries)` from `review.js`. -/
def llmWithRetry {ρ : Type} (oracle : Nat → Except LlmErr ρ) (maxRetries : Nat) :
    Option (Except LlmErr ρ) × List Nat :=
  retryGo oracle maxRetries maxRetries 0

/-- A JSON value as `JSON.parse` produces it (numbers kept as their raw
source text, which none of the claims inspect). -/
inductive Json where
  | null
  | bool (b : Bool)
  | num (raw : String)
  | str (s : String)
  | arr (elems : List Json)
  | obj (fields : List (String × Json))

/-- JSON insignificant whitespace. -/
def jsonWsCh (c : Char) : Bool := c = ' ' || c = '\t' || c = '\n' || c = '\r'

/-- Skip JSON insignificant whitespace. -/
def skipJsonWs (cs : List Char) : List Char := cs.dropWhile jsonWsCh

/-- Hexadecimal digit value. -/
def hexVal (c : Char) : Option Nat :=
  if c.isDigit then some (c.toNat - 48)
  else if 'a' ≤ c ∧ c ≤ 'f' then some (c.toNat - 87)
  else if 'A' ≤ c ∧ c ≤ 'F' then some (c.toNat - 55)
  else none

/-- JSON string body after the opening quote: decoded characters and the rest
after the closing quote.  Fuel-driven so that the kernel can evaluate it. -/
def parseStrAux : Nat → List Char → Option (List Char × List Char)
  | 0, _ => none
  | fuel + 1, cs =>
    match cs with
    | [] => none
    | '"' :: rest => some ([], rest)
    | '\\' :: e :: rest =>
      let cont : Char → List Char → Option (List Char × List Char) := fun c r =>
        match parseStrAux fuel r with
        | some (s, r2) => some (c :: s, r2)
        | none => none
      match e with
      | '"' => cont '"' rest
      | '\\' => cont '\\' rest
      | '/' => cont '/' rest
      | 'b' => cont (Char.ofNat 8) rest
      | 'f' => cont (Char.ofNat 12) rest
      | 'n' => cont '\n' rest
      | 'r' => cont '\r' rest
      | 't' => cont '\t' rest
      | 'u' =>
        match rest with
        | h1 :: h2 :: h3 :: h4 :: r2 =>
          match hexVal h1, hexVal h2, hexVal h3, hexVal h4 with
          | some a, some b, some c, some d =>
            cont (Char.ofNat (a * 4096 + b * 256 + c * 16 + d)) r2
          | _, _, _, _ => none
        | _ => none
      | _ => none
    | c :: rest =>
      if c.toNat < 32 then none
      else
        match parseStrAux fuel rest with
        | some (s, r2) => some (c :: s, r2)
        | none => none

/-- JSON number token: the raw consumed characters and the rest. -/
def parseJsonNumber (cs : List Char) : Option (List Char × List Char) :=
  let signed : List Char × List Char :=
    match cs with
    | '-' :: r => (['-'], r)
    | _ => ([], cs)
  match signed.2 with
  | c :: r =>
    if c = '0' ∨ ¬c.isDigit then
      if c = '0' then parseJsonNumTail (signed.1 ++ [c]) r else none
    else
      parseJsonNumTail (signed.1 ++ [c] ++ r.takeWhile Char.isDigit) (r.dropWhile Char.isDigit)
  | [] => none
where
  parseJsonNumTail (acc : List Char) (cs : List Char) : Option (List Char × List Char) :=
    let afterFrac : Option (List Char × List Char) :=
      match cs with
      | '.' :: r =>
        let ds := r.takeWhile Char.isDigit
        if ds.isEmpty then none else some (acc ++ ['.'] ++ ds, r.dropWhile Char.isDigit)
      | _ => some (acc, cs)
    match afterFrac with
    | none => none
    | some (acc2, cs2) =>
      match cs2 with
      | c :: r =>
        if c = 'e' ∨ c = 'E' then
          let signedExp : List Char × List Char :=
            match r with
            | '+' :: r2 => ([c, '+'], r2)
            | '-' :: r2 => ([c, '-'], r2)
            | _ => ([c], r)
          let ds := signedExp.2.takeWhile Char.isDigit
          if ds.isEmpty then none
          else some (acc2 ++ signedExp.1 ++ ds, signedExp.2.dropWhile Char.isDigit)
        else some (acc2, cs2)
      | [] => some (acc2, cs2)

/-- JSON array element sequence after the first element's start, parameterized
by the value parser for the current nesting level. -/
def parseElemsF (pv : List Char → Option (Json × List Char)) :
    Nat → List Char → Option (List Json × List Char)
  | 0, _ => none
  | fuel + 1, cs =>
    match pv cs with
    | none => none
    | some (v, r) =>
      match skipJsonWs r with
      | ',' :: r2 =>
        match parseElemsF pv fuel r2 with
        | some (vs, r3) => some (v :: vs, r3)
        | none => none
      | ']' :: r2 => some ([v], r2)
      | _ => none

/-- JSON object field sequence, parameterized by the value parser. -/
def parseFieldsF (pv : List Char → Option (Json × List Char)) :
    Nat → List Char → Option (List (String × Json) × List Char)
  | 0, _ => none
  | fuel + 1, cs =>
    match skipJsonWs cs with
    | '"' :: rest =>
      match parseStrAux (rest.length + 1) rest with
      | none => none
      | some (k, r) =>
        match skipJsonWs r with
        | ':' :: r2 =>
          match pv r2 with
          | none => none
          | some (v, r3) =>
            match skipJsonWs r3 with
            | ',' :: r4 =>
              match parseFieldsF pv fuel r4 with
              | some (fs, r5) => some ((String.mk k, v) :: fs, r5)
              | none => none
            | '}' :: r4 => some ([(String.mk k, v)], r4)
            | _ => none
        | _ => none
    | _ => none

/-- JSON value parser; the fuel bounds the nesting depth. -/
def parseValue : Nat → List Char → Option (Json × List Char)
  | 0, _ => none
  | fuel + 1, cs =>
    match skipJsonWs cs with
    | 'n' :: 'u' :: 'l' :: 'l' :: rest => some (.null, rest)
    | 't' :: 'r' :: 'u' :: 'e' :: rest => some (.bool true, rest)
    | 'f' :: 'a' :: 'l' :: 's' :: 'e' :: rest => some (.bool false, rest)
    | '"' :: rest =>
      match parseStrAux (rest.length + 1) rest with
      | some (s, r) => some (.str (String.mk s), r)
      | none => none
    | '[' :: rest =>
      match skipJsonWs rest with
      | ']' :: r => some (.arr [], r)
      | _ =>
        match parseElemsF (fun cs2 => parseValue fuel cs2) (rest.length + 1) rest with
        | some (vs, r) => some (.arr vs, r)
        | none => none
    | '{' :: rest =>
      match skipJsonWs rest with
      | '}' :: r => some (.obj [], r)
      | _ =>
        match parseFieldsF (fun cs2 => parseValue fuel cs2) (rest.length + 1) rest with
        | some (fs, r) => some (.obj fs, r)
        | none => none
    | rest =>
      match parseJsonNumber rest with
      | some (raw, r) => some (.num (String.mk raw), r)
      | none => none

/-- `JSON.parse(s)`: a single value, with only trailing whitespace allowed. -/
def jsonParse (s : String) : Option Json :=
  match parseValue (s.data.length + 1) s.data with
  | some (v, rest) => if (skipJsonWs rest).isEmpty then some v else none
  | none => none

/-- The backtick character. -/
def backtickCh : Char := Char.ofNat 96

/-- JS `String.prototype.trim()`. -/
def jsTrim (s : String) : String :=
  String.mk (((s.data.dropWhile Char.isWhitespace).reverse.dropWhile Char.isWhitespace).reverse)

/-- Length of a match of `/^```(?:json)?\s*\n?/` at this position: three
backticks, optionally `json`, then the greedy whitespace run. -/
def openFenceLen (cs : List Char) : Option Nat :=
  match cs with
  | a :: b :: c :: rest =>
    if a == backtickCh && b == backtickCh && c == backtickCh then
      let jn : Nat × List Char :=
        match rest with
        | 'j' :: 's' :: 'o' :: 'n' :: r2 => (4, r2)
        | _ => (0, rest)
      some (3 + jn.1 + (jn.2.takeWhile Char.isWhitespace).length)
    else none
  | _ => none

/-- Remove the first match of the opening-fence pattern, which the `m` flag
anchors at a line start. -/
def stripOpenAux : List Char → Bool → List Char
  | [], _ => []
  | c :: rest, atStart =>
    if atStart then
      match openFenceLen (c :: rest) with
      | some n => (c :: rest).drop n
      | none => c :: stripOpenAux rest (c = '\n')
    else c :: stripOpenAux rest (c = '\n')

/-- `text.replace(/^```(?:json)?\s*\n?/m, '')` from `parseComments`. -/
def stripOpenFence (s : String) : String := String.mk (stripOpenAux s.data true)

/-- Match of three backticks followed by `\s*` up to a line end (`$` with the
`m` flag): the greedy run backtracks to the last newline inside it. -/
def closeCore (cs : List Char) : Option Nat :=
  match cs with
  | a :: b :: c :: rest =>
    if a == backtickCh && b == backtickCh && c == backtickCh then
      let run := rest.takeWhile Char.isWhitespace
      if rest.drop run.length = [] then some (3 + run.length)
      else
        match run.reverse.findIdx? (fun ch => ch = '\n') with
        | some j => some (3 + (run.length - 1 - j))
        | none => none
    else none
  | _ => none

/-- Length of a match of `/\n?```\s*$/m` at this position. -/
def closeFenceLen (cs : List Char) : Option Nat :=
  match cs with
  | '\n' :: rest =>
    match closeCore rest with
    | some n => some (n + 1)
    | none => closeCore ('\n' :: rest)
  | _ => closeCore cs

/-- Remove the first (leftmost) match of the closing-fence pattern. -/
def stripCloseAux : List Char → List Char
  | [] => []
  | c :: rest =>
    match closeFenceLen (c :: rest) with
    | some n => (c :: rest).drop n
    | none => c :: stripCloseAux rest

/-- `cleaned.replace(/\n?```\s*$/m, '')` from `parseComments`. -/
def stripCloseFence (s : String) : String := String.mk (stripCloseAux s.data)

/-- `parseComments(text)` from `review.js`: strip markdown fences, trim,
extract the first `[...]` span when one exists, then `JSON.parse`.  `none`
models the JS exception. -/
def parseComments (text : String) : Option Json :=
  let cleaned := jsTrim (stripCloseFence (stripOpenFence text))
  let cs := cleaned.data
  let cs2 :=
    match cs.findIdx? (fun c => c = '['), cs.reverse.findIdx? (fun c => c = ']') with
    | some st, some rj =>
      let en := cs.length - 1 - rj
      if st < en then (cs.drop st).take (en + 1 - st) else cs
    | _, _ => cs
  jsonParse (String.mk cs2)

/-- `Array.isArray(parsedComments)`. -/
def isArray : Json → Bool
  | .arr _ => true
  | _ => false

/-- Elements of an array value. -/
def arrayElems : Json → List Json
  | .arr xs => xs
  | _ => []

/-- The parse/re-prompt control flow of `reviewChunk` (`review.js`):
`firstText` is the first response's text and `retryText` the corrective
re-prompt's response text (`none` when that call throws).  Returns the number
of corrective re-prompts issued and the final comment list. -/
def reviewChunkFlow (firstText : String) (retryText : Option String) : Nat × List Json :=
  match parseComments firstText with
  | some v => (0, if isArray v then arrayElems v else [])
  | none =>
    match retryText with
    | none => (1, [])
    | some t =>
      match parseComments t with
      | some v => (1, if isArray v then arrayElems v else [])
      | none => (1, [])

/-- C1: `getValidLines` walks the patch line by line — a hunk header matching
`@@ -a[,b] +c[,d] @@` resets the cursor to `c`; lines beginning with `-` or
`\` are skipped without advancing the cursor; every other line registers the
current cursor value and advances it by one; a null patch yields the empty
set; and on the example patch the result is exactly {10, 11, 12, 13, 14}. -/
theorem C1_getValidLines_walk :
    getValidLines none = [] ∧
    (∀ s : String, s ≠ "" → getValidLines (some s) = validLinesAux (splitLines s) 0) ∧
    (∀ raw rest cur c, matchHunkHeader raw = some c →
      validLinesAux (raw :: rest) cur = validLinesAux rest c) ∧
    (∀ raw rest cur, matchHunkHeader raw = none →
      (startsWithCh raw '-' || startsWithCh raw '\\') = true →
      validLinesAux (raw :: rest) cur = validLinesAux rest cur) ∧
    (∀ raw rest cur, matchHunkHeader raw = none →
      (startsWithCh raw '-' || startsWithCh raw '\\') = false →
      validLinesAux (raw :: rest) cur = cur :: validLinesAux rest (cur + 1)) ∧
    getValidLines (some "@@ -10,4 +10,6 @@\n const a = 1;\n+const b = 2;\n+const c = 3;\n const d = 4;\n const e = 5;") = [10, 11, 12, 13, 14] := by
  refine ⟨rfl, ?_, ?_, ?_, ?_, by decide⟩
  · intro s hs
    simp [getValidLines, hs]
  · intro raw rest cur c h
    simp [validLinesAux, h]
  · intro raw rest cur h hb
    rcases Bool.or_eq_true_iff.mp hb with h1 | h1 <;>
      cases h2 : startsWithCh raw '-' <;>
        simp_all [validLinesAux, h]
  · intro raw rest cur h hb
    rcases Bool.or_eq_false_iff.mp hb with ⟨h1, h2⟩
    simp [validLinesAux, h, h1, h2]

theorem C1_getValidLines_walk_witness :
    getValidLines (some "@@ -1 +5 @@\nctx") = validLinesAux (splitLines "@@ -1 +5 @@\nctx") 0 ∧
    validLinesAux ["@@ -1 +5 @@", "ctx"] 0 = validLinesAux ["ctx"] 5 ∧
    validLinesAux ["-del", "x"] 9 = validLinesAux ["x"] 9 ∧
    validLinesAux ["ctx", "y"] 7 = 7 :: validLinesAux ["y"] 8 :=
  ⟨C1_getValidLines_walk.2.1 _ (by decide),
   C1_getValidLines_walk.2.2.1 _ _ _ 5 (by decide),
   C1_getValidLines_walk.2.2.2.1 _ _ _ (by decide) (by decide),
   C1_getValidLines_walk.2.2.2.2.1 _ _ _ (by decide) (by decide)⟩

theorem validLinesAux_no_hunk (ls : List String) (cur : Nat)
    (h : ∀ raw ∈ ls, matchHunkHeader raw = none) :
    validLinesAux ls cur =
      List.range' cur
        (ls.countP (fun raw => !(startsWithCh raw '-' || startsWithCh raw '\\'))) := by
  induction ls generalizing cur with
  | nil => simp [validLinesAux]
  | cons raw rest ih =>
    have hr : matchHunkHeader raw = none := h raw (by simp)
    have hrest : ∀ r ∈ rest, matchHunkHeader r = none := fun r hm => h r (by simp [hm])
    cases h1 : startsWithCh raw '-' with
    | true => simp [validLinesAux, hr, h1, ih _ hrest, List.countP_cons]
    | false =>
      cases h2 : startsWithCh raw '\\' with
      | true => simp [validLinesAux, hr, h1, h2, ih _ hrest, List.countP_cons]
      | false =>
        simp [validLinesAux, hr, h1, h2, ih _ hrest, List.countP_cons, List.range'_succ]

/-- C10: a patch needs no hunk header — for a non-empty patch none of whose
lines matches the hunk-header pattern, every line not beginning with `-` or
`\` is registered as a valid line, and the registered numbers are exactly
`0, 1, …` consecutively: text preceding any hunk header is commentable
starting at line 0. -/
theorem C10_no_hunk_patch (s : String) (hs : s ≠ "")
    (h : ∀ raw ∈ splitLines s, matchHunkHeader raw = none) :
    getValidLines (some s) =
      List.range
        ((splitLines s).countP (fun raw => !(startsWithCh raw '-' || startsWithCh raw '\\'))) := by
  simp [getValidLines, hs, validLinesAux_no_hunk _ _ h, List.range_eq_range']

theorem C10_no_hunk_patch_witness :
    getValidLines (some "hello\n-skip\nworld") =
      List.range
        ((splitLines "hello\n-skip\nworld").countP
          (fun raw => !(startsWithCh raw '-' || startsWithCh raw '\\'))) :=
  C10_no_hunk_patch _ (by decide) (by decide)

theorem patchLinesAux_map_fst (ls : List String) (cur : Nat) :
    (patchLinesAux ls cur).map Prod.fst = validLinesAux ls cur := by
  induction ls generalizing cur with
  | nil => simp [patchLinesAux, validLinesAux]
  | cons raw rest ih =>
    cases h : matchHunkHeader raw with
    | some c => simp [patchLinesAux, validLinesAux, h, ih]
    | none =>
      cases h1 : startsWithCh raw '-' <;> cases h2 : startsWithCh raw '\\' <;>
        simp [patchLinesAux, validLinesAux, h, h1, h2, ih]

theorem patchLinesAux_snd_stripPlus (ls : List String) (cur : Nat) :
    ∀ p ∈ patchLinesAux ls cur, ∃ raw ∈ ls, p.2 = stripPlus raw := by
  induction ls generalizing cur with
  | nil => simp [patchLinesAux]
  | cons raw rest ih =>
    intro p hp
    cases h : matchHunkHeader raw with
    | some c =>
      rw [patchLinesAux, h] at hp
      obtain ⟨r, hr, he⟩ := ih _ p hp
      exact ⟨r, by simp [hr], he⟩
    | none =>
      rw [patchLinesAux, h] at hp
      by_cases h1 : startsWithCh raw '-' = true
      · rw [if_pos h1] at hp
        obtain ⟨r, hr, he⟩ := ih _ p hp
        exact ⟨r, by simp [hr], he⟩
      · rw [if_neg h1] at hp
        by_cases h2 : startsWithCh raw '\\' = true
        · rw [if_pos h2] at hp
          obtain ⟨r, hr, he⟩ := ih _ p hp
          exact ⟨r, by simp [hr], he⟩
        · rw [if_neg h2] at hp
          rcases List.mem_cons.mp hp with rfl | hp2
          · exact ⟨raw, by simp⟩
          · obtain ⟨r, hr, he⟩ := ih _ p hp2
            exact ⟨r, by simp [hr], he⟩

/-- C2 (amended): `extractSnippet patch L` is `none` iff `L` is not a valid
line of the patch; a returned snippet is the join of at most three mapped
lines, includes the line numbered `L`, and every snippet line is a raw patch
line with its leading `+` stripped; and when the target is found at the first
or the last position of the mapped sequence and that sequence has at least two
lines, the snippet has exactly two lines.  (The claim's unconditional
"exactly 2 lines at the boundary" fails when the patch maps a single line.) -/
theorem C2_extractSnippet_spec :
    (∀ patch L, extractSnippet patch L = none ↔ L ∉ getValidLines patch) ∧
    (∀ s L out, extractSnippet (some s) L = some out →
      ∃ sl : List String,
        out = joinSep "\n" sl ∧
        1 ≤ sl.length ∧ sl.length ≤ 3 ∧
        (∃ p ∈ patchLinesAux (splitLines s) 0, p.1 = L ∧ p.2 ∈ sl) ∧
        (∀ t ∈ sl, ∃ raw ∈ splitLines s, t = stripPlus raw)) ∧
    (∀ s L idx, s ≠ "" →
      (patchLinesAux (splitLines s) 0).findIdx? (fun p => p.1 == L) = some idx →
      2 ≤ (patchLinesAux (splitLines s) 0).length →
      (idx = 0 ∨ idx = (patchLinesAux (splitLines s) 0).length - 1) →
      ∃ sl : List String,
        extractSnippet (some s) L = some (joinSep "\n" sl) ∧ sl.length = 2) := by
  refine ⟨?_, ?_, ?_⟩
  · intro patch L
    cases patch with
    | none => simp [extractSnippet, getValidLines]
    | some s =>
      by_cases hs : s = ""
      · simp [extractSnippet, getValidLines, hs]
      · have hvl : getValidLines (some s) = (patchLinesAux (splitLines s) 0).map Prod.fst := by
          simp [getValidLines, hs, patchLinesAux_map_fst]
        rw [hvl]
        cases hidx : (patchLinesAux (splitLines s) 0).findIdx? (fun p => p.1 == L) with
        | none =>
          have hall := List.findIdx?_eq_none_iff.mp hidx
          have hmem : L ∉ (patchLinesAux (splitLines s) 0).map Prod.fst := by
            intro hL
            obtain ⟨p, hp, he⟩ := List.mem_map.mp hL
            have := hall p hp
            simp [he] at this
          simp [extractSnippet, hs, hidx, hmem]
        | some idx =>
          obtain ⟨hlt, hpeq, -⟩ := List.findIdx?_eq_some_iff_getElem.mp hidx
          have hmem : L ∈ (patchLinesAux (splitLines s) 0).map Prod.fst := by
            refine List.mem_map.mpr
              ⟨(patchLinesAux (splitLines s) 0).get ⟨idx, hlt⟩, List.get_mem _ _ _, ?_⟩
            simpa [List.get_eq_getElem] using hpeq
          simp [extractSnippet, hs, hidx, hmem]
  · intro s L out hout
    by_cases hs : s = ""
    · simp [extractSnippet, hs] at hout
    · cases hidx : (patchLinesAux (splitLines s) 0).findIdx? (fun p => p.1 == L) with
      | none => simp [extractSnippet, hs, hidx] at hout
      | some idx =>
        obtain ⟨hlt, hpeq, -⟩ := List.findIdx?_eq_some_iff_getElem.mp hidx
        have hout2 : out = joinSep "\n"
            ((((patchLinesAux (splitLines s) 0).drop (idx - 1)).take
              (min (patchLinesAux (splitLines s) 0).length (idx + 2) - (idx - 1))).map
                Prod.snd) := by
          have := hout
          simp [extractSnippet, hs, hidx] at this
          rw [List.map_take, List.map_drop]
          exact this.symm
        refine ⟨_, hout2, ?_, ?_, ?_, ?_⟩
        · simp only [List.length_map, List.length_take, List.length_drop]
          omega
        · simp only [List.length_map, List.length_take, List.length_drop]
          omega
        · have h1 : idx - (idx - 1) <
              (((patchLinesAux (splitLines s) 0).drop (idx - 1)).take
                (min (patchLinesAux (splitLines s) 0).length (idx + 2) - (idx - 1))).length := by
            simp only [List.length_take, List.length_drop]
            omega
          have h2 : (((patchLinesAux (splitLines s) 0).drop (idx - 1)).take
                (min (patchLinesAux (splitLines s) 0).length (idx + 2) - (idx - 1))).get
                  ⟨idx - (idx - 1), h1⟩ =
              (patchLinesAux (splitLines s) 0).get ⟨idx, hlt⟩ := by
            have harith : idx - 1 + (idx - (idx - 1)) = idx := by omega
            simp [List.get_eq_getElem, List.getElem_take, List.getElem_drop, harith]
          refine ⟨(patchLinesAux (splitLines s) 0).get ⟨idx, hlt⟩, List.get_mem _ _ _, ?_, ?_⟩
          · have : ((patchLinesAux (splitLines s) 0).get ⟨idx, hlt⟩).1 == L := by
              simpa [List.get_eq_getElem] using hpeq
            simpa using this
          · rw [← h2]
            exact List.mem_map_of_mem _ (List.get_mem _ _ _)
        · intro t ht
          obtain ⟨p, hp, he⟩ := List.mem_map.mp ht
          have hpl : p ∈ patchLinesAux (splitLines s) 0 :=
            List.drop_subset _ _ (List.take_subset _ _ hp)
          obtain ⟨raw, hraw, he2⟩ := patchLinesAux_snd_stripPlus _ _ p hpl
          exact ⟨raw, hraw, by rw [← he, he2]⟩
  · intro s L idx hs hidx hn hcase
    obtain ⟨hlt, -, -⟩ := List.findIdx?_eq_some_iff_getElem.mp hidx
    refine ⟨(((patchLinesAux (splitLines s) 0).drop (idx - 1)).take
      (min (patchLinesAux (splitLines s) 0).length (idx + 2) - (idx - 1))).map Prod.snd,
      ?_, ?_⟩
    · simp [extractSnippet, hs, hidx]
    · simp only [List.length_map, List.length_take, List.length_drop]
      omega

theorem C2_extractSnippet_spec_witness :
    (extractSnippet (some "@@ -3,2 +3,2 @@\n a\n b") 9 = none ↔
      9 ∉ getValidLines (some "@@ -3,2 +3,2 @@\n a\n b")) ∧
    (∃ sl : List String,
      " a\n b" = joinSep "\n" sl ∧
      1 ≤ sl.length ∧ sl.length ≤ 3 ∧
      (∃ p ∈ patchLinesAux (splitLines "@@ -3,2 +3,2 @@\n a\n b") 0, p.1 = 3 ∧ p.2 ∈ sl) ∧
      (∀ t ∈ sl, ∃ raw ∈ splitLines "@@ -3,2 +3,2 @@\n a\n b", t = stripPlus raw)) ∧
    (∃ sl : List String,
      extractSnippet (some "@@ -3,2 +3,2 @@\n a\n b") 4 = some (joinSep "\n" sl) ∧
      sl.length = 2) :=
  ⟨C2_extractSnippet_spec.1 (some "@@ -3,2 +3,2 @@\n a\n b") 9,
   C2_extractSnippet_spec.2.1 "@@ -3,2 +3,2 @@\n a\n b" 3 " a\n b" (by decide),
   C2_extractSnippet_spec.2.2 "@@ -3,2 +3,2 @@\n a\n b" 4 1 (by decide) (by decide)
     (by decide) (Or.inr (by decide))⟩

theorem C2_counterexample :
    extractSnippet (some "@@ -1,1 +1,1 @@\n x") 1 = some " x" ∧
    (patchLinesAux (splitLines "@@ -1,1 +1,1 @@\n x") 0).findIdx? (fun p => p.1 == 1) =
      some 0 ∧
    (patchLinesAux (splitLines "@@ -1,1 +1,1 @@\n x") 0).length - 1 = 0 ∧
    ¬ (splitLines " x").length = 2 := by decide

/-- C5 (amended): validation accepts a comment iff it has a truthy (non-empty)
file, a truthy line (numeric and nonzero — JS falsiness also rejects the
number 0), a truthy (non-empty) body, and its line is a member of the valid
lines of its file's patch; the validated list is a subset of the input, and
every accepted comment's line is a member of the valid-line set of its file's
patch. -/
theorem C5_validate_spec :
    (∀ comments filePatches, validCommentsFilter comments filePatches ⊆ comments) ∧
    (∀ comments filePatches c,
      c ∈ validCommentsFilter comments filePatches ↔
        c ∈ comments ∧ truthy c.file = true ∧ truthyInt c.line = true ∧
          truthy c.body = true ∧
          hasLine (getValidLines (patchOf filePatches (c.file.getD ""))) (c.line.getD 0)
            = true) ∧
    (∀ comments filePatches c, c ∈ validCommentsFilter comments filePatches →
      hasLine (getValidLines (patchOf filePatches (c.file.getD ""))) (c.line.getD 0)
        = true) := by
  refine ⟨?_, ?_, ?_⟩
  · intro comments filePatches x hx
    exact (List.mem_filter.mp hx).1
  · intro comments filePatches c
    simp [validCommentsFilter, List.mem_filter, and_assoc]
  · intro comments filePatches c hc
    have hp := (List.mem_filter.mp hc).2
    simp only [Bool.and_eq_true] at hp
    exact hp.2

theorem C5_validate_spec_witness :
    validCommentsFilter [⟨some "a.js", some 10, some "x"⟩]
        [("a.js", some "@@ -10,2 +10,2 @@\n a\n b")] ⊆
      [⟨some "a.js", some 10, some "x"⟩] ∧
    (⟨some "a.js", some 10, some "x"⟩ ∈
      validCommentsFilter [⟨some "a.js", some 10, some "x"⟩]
        [("a.js", some "@@ -10,2 +10,2 @@\n a\n b")] ↔
      (⟨some "a.js", some 10, some "x"⟩ : RawComment) ∈
          [(⟨some "a.js", some 10, some "x"⟩ : RawComment)] ∧
        truthy (some "a.js") = true ∧ truthyInt (some 10) = true ∧ truthy (some "x") = true ∧
        hasLine
          (getValidLines
            (patchOf [("a.js", some "@@ -10,2 +10,2 @@\n a\n b")] ((some "a.js").getD "")))
          ((some (10 : Int)).getD 0) = true) ∧
    hasLine
      (getValidLines
        (patchOf [("a.js", some "@@ -10,2 +10,2 @@\n a\n b")] ((some "a.js").getD "")))
      ((some (10 : Int)).getD 0) = true :=
  ⟨C5_validate_spec.1 [⟨some "a.js", some 10, some "x"⟩]
      [("a.js", some "@@ -10,2 +10,2 @@\n a\n b")],
   C5_validate_spec.2.1 [⟨some "a.js", some 10, some "x"⟩]
      [("a.js", some "@@ -10,2 +10,2 @@\n a\n b")] ⟨some "a.js", some 10, some "x"⟩,
   C5_validate_spec.2.2 [⟨some "a.js", some 10, some "x"⟩]
      [("a.js", some "@@ -10,2 +10,2 @@\n a\n b")] ⟨some "a.js", some 10, some "x"⟩
      (by decide)⟩

theorem C5_counterexample :
    validCommentsFilter [⟨some "a.js", some 0, some "x"⟩] [("a.js", some "hello")] = [] ∧
    truthy (some "a.js") = true ∧ truthy (some "x") = true ∧
    hasLine (getValidLines (patchOf [("a.js", some "hello")] "a.js")) 0 = true := by decide

/-- C9: every model call retries only retryable errors (429/529, status ≥ 500,
connection/timeout codes) with exponential backoff doubling the delay each
attempt, up to the hard ceiling of 3 attempts; a non-retryable error is
re-thrown immediately with no backoff, and the last attempt's error escalates
whether or not it is retryable — the delay list is always an initial run of
`2^i * 1000` of length at most 2. -/
theorem C9_llmWithRetry_spec {ρ : Type} (oracle : Nat → Except LlmErr ρ) :
    ((llmWithRetry oracle 3).2.length ≤ 2 ∧
      (llmWithRetry oracle 3).2 =
        (List.range (llmWithRetry oracle 3).2.length).map retryDelay) ∧
    (∀ r, oracle 0 = .ok r → llmWithRetry oracle 3 = (some (.ok r), [])) ∧
    (∀ e, oracle 0 = .error e → isRetryable e = false →
      llmWithRetry oracle 3 = (some (.error e), [])) ∧
    (∀ e r, oracle 0 = .error e → isRetryable e = true → oracle 1 = .ok r →
      llmWithRetry oracle 3 = (some (.ok r), [1000])) ∧
    (∀ e e1, oracle 0 = .error e → isRetryable e = true → oracle 1 = .error e1 →
      isRetryable e1 = false → llmWithRetry oracle 3 = (some (.error e1), [1000])) ∧
    (∀ e e1 r, oracle 0 = .error e → isRetryable e = true → oracle 1 = .error e1 →
      isRetryable e1 = true → oracle 2 = .ok r →
      llmWithRetry oracle 3 = (some (.ok r), [1000, 2000])) ∧
    (∀ e e1 e2, oracle 0 = .error e → isRetryable e = true → oracle 1 = .error e1 →
      isRetryable e1 = true → oracle 2 = .error e2 →
      llmWithRetry oracle 3 = (some (.error e2), [1000, 2000])) := by
  refine ⟨?_, ?_, ?_, ?_, ?_, ?_, ?_⟩
  · cases h0 : oracle 0 with
    | ok r => simp [llmWithRetry, retryGo, h0]
    | error e =>
      by_cases hre : isRetryable e = true
      · cases h1 : oracle 1 with
        | ok r =>
          simp [llmWithRetry, retryGo, h0, hre, h1, retryDelay, List.range_succ]
        | error e1 =>
          by_cases hre1 : isRetryable e1 = true
          · cases h2 : oracle 2 with
            | ok r =>
              simp [llmWithRetry, retryGo, h0, hre, h1, hre1, h2, retryDelay, List.range_succ]
            | error e2 =>
              simp [llmWithRetry, retryGo, h0, hre, h1, hre1, h2, retryDelay, List.range_succ]
          · have hre1f : isRetryable e1 = false := by simpa using hre1
            simp [llmWithRetry, retryGo, h0, hre, h1, hre1f, retryDelay, List.range_succ]
      · have href : isRetryable e = false := by simpa using hre
        simp [llmWithRetry, retryGo, h0, href]
  · intro r h0
    simp [llmWithRetry, retryGo, h0]
  · intro e h0 hre
    simp [llmWithRetry, retryGo, h0, hre]
  · intro e r h0 hre h1
    simp [llmWithRetry, retryGo, h0, hre, h1, retryDelay]
  · intro e e1 h0 hre h1 hre1
    simp [llmWithRetry, retryGo, h0, hre, h1, hre1, retryDelay]
  · intro e e1 r h0 hre h1 hre1 h2
    simp [llmWithRetry, retryGo, h0, hre, h1, hre1, h2, retryDelay]
  · intro e e1 e2 h0 hre h1 hre1 h2
    simp [llmWithRetry, retryGo, h0, hre, h1, hre1, h2, retryDelay]

theorem C9_llmWithRetry_spec_witness :
    llmWithRetry (fun _ => Except.ok (0 : Nat)) 3 = (some (.ok 0), []) ∧
    llmWithRetry (fun _ => (Except.error ⟨some 400, none⟩ : Except LlmErr Nat)) 3 =
      (some (.error ⟨some 400, none⟩), []) ∧
    llmWithRetry (fun n => if n = 0 then (Except.error ⟨some 429, none⟩ : Except LlmErr Nat)
      else .ok 7) 3 = (some (.ok 7), [1000]) ∧
    llmWithRetry (fun n => if n ≤ 1 then (Except.error ⟨some 503, none⟩ : Except LlmErr Nat)
      else .ok 7) 3 = (some (.ok 7), [1000, 2000]) ∧
    llmWithRetry (fun _ => (Except.error ⟨none, some "ETIMEDOUT"⟩ : Except LlmErr Nat)) 3 =
      (some (.error ⟨none, some "ETIMEDOUT"⟩), [1000, 2000]) :=
  ⟨(C9_llmWithRetry_spec _).2.1 0 rfl,
   (C9_llmWithRetry_spec _).2.2.1 _ rfl (by decide),
   (C9_llmWithRetry_spec _).2.2.2.1 _ 7 rfl (by decide) rfl,
   (C9_llmWithRetry_spec _).2.2.2.2.2.1 _ _ 7 rfl (by decide) rfl (by decide) rfl,
   (C9_llmWithRetry_spec _).2.2.2.2.2.2 _ _ _ rfl (by decide) rfl (by decide) rfl⟩

theorem sortInsert_perm {α : Type} (lt : α → α → Bool) (a : α) (l : List α) :
    (sortInsert lt a l).Perm (a :: l) := by
  induction l with
  | nil => simp [sortInsert]
  | cons b bs ih =>
    rw [sortInsert]
    by_cases h : lt b a = true
    · rw [if_pos h]
      exact (ih.cons b).trans (List.Perm.swap a b bs)
    · rw [if_neg h]

theorem stableSort_perm {α : Type} (lt : α → α → Bool) (l : List α) :
    (stableSort lt l).Perm l := by
  induction l with
  | nil => rfl
  | cons x xs ih =>
    rw [stableSort]
    exact (sortInsert_perm lt x (stableSort lt xs)).trans (ih.cons x)

theorem sortInsert_pairwise {α : Type} (lt : α → α → Bool) (R : α → α → Prop)
    (h1 : ∀ x y, lt y x = false → R x y) (h2 : ∀ x y, lt x y = true → R x y)
    (h3 : ∀ x y z, R x y → R y z → R x z) (a : α) (l : List α)
    (hl : l.Pairwise R) : (sortInsert lt a l).Pairwise R := by
  induction l with
  | nil => simp [sortInsert]
  | cons b bs ih =>
    rw [sortInsert]
    rcases List.pairwise_cons.mp hl with ⟨hb, hbs⟩
    by_cases h : lt b a = true
    · rw [if_pos h]
      refine List.pairwise_cons.mpr ⟨?_, ih hbs⟩
      intro c hc
      rcases List.mem_cons.mp (((sortInsert_perm lt a bs).mem_iff).mp hc) with h4 | h4
      · rw [h4]
        exact h2 b a h
      · exact hb c h4
    · rw [if_neg h]
      refine List.pairwise_cons.mpr ⟨?_, hl⟩
      intro c hc
      rcases List.mem_cons.mp hc with rfl | hc2
      · exact h1 a c (by simpa using h)
      · exact h3 a b c (h1 a b (by simpa using h)) (hb c hc2)

theorem stableSort_pairwise {α : Type} (lt : α → α → Bool) (R : α → α → Prop)
    (h1 : ∀ x y, lt y x = false → R x y) (h2 : ∀ x y, lt x y = true → R x y)
    (h3 : ∀ x y z, R x y → R y z → R x z) (l : List α) :
    (stableSort lt l).Pairwise R := by
  induction l with
  | nil => simp [stableSort]
  | cons x xs ih =>
    rw [stableSort]
    exact sortInsert_pairwise lt R h1 h2 h3 x _ ih

theorem stableSort_roundsAfter (n : Nat) (hn : 1 ≤ n) :
    ∃ tail, stableSort roundDesc (roundsAfter n) = (⟨n, []⟩ : RoundRec) :: tail := by
  have hperm := stableSort_perm roundDesc (roundsAfter n)
  have hpw : (stableSort roundDesc (roundsAfter n)).Pairwise
      (fun x y => y.number ≤ x.number) := by
    refine stableSort_pairwise roundDesc _ ?_ ?_ ?_ _
    · intro x y h
      simp [roundDesc] at h
      exact h
    · intro x y h
      simp [roundDesc] at h
      omega
    · intro x y z hxy hyz
      omega
  cases hhead : stableSort roundDesc (roundsAfter n) with
  | nil =>
    exfalso
    have := hperm.length_eq
    rw [hhead] at this
    simp [roundsAfter] at this
    omega
  | cons m tail =>
    refine ⟨tail, ?_⟩
    have hm_mem : m ∈ roundsAfter n := hperm.mem_iff.mp (by simp [hhead])
    have hall : ∀ r ∈ roundsAfter n, r.number ≤ m.number := by
      intro r hr
      have hr2 : r ∈ stableSort roundDesc (roundsAfter n) := hperm.mem_iff.mpr hr
      rw [hhead] at hr2
      rcases List.mem_cons.mp hr2 with rfl | hr3
      · exact le_refl _
      · rw [hhead] at hpw
        exact (List.pairwise_cons.mp hpw).1 r hr3
    obtain ⟨k, hk_mem, hmk⟩ := List.mem_map.mp hm_mem
    rw [List.mem_range'_1] at hk_mem
    have hn_mem : (⟨n, []⟩ : RoundRec) ∈ roundsAfter n := by
      refine List.mem_map.mpr ⟨n, List.mem_range'_1.mpr ⟨hn, by omega⟩, by simp⟩
    have hle := hall _ hn_mem
    have hnum : m.number = k := by rw [← hmk]
    have hkn : k = n := by
      simp only [hnum] at hle
      omega
    have hm : m = (⟨n, []⟩ : RoundRec) := by
      rw [← hmk, hkn]
      simp
    rw [hm]

theorem runEvents_eq_roundsAfter (n : Nat) : runEvents n = roundsAfter n := by
  induction n with
  | zero => simp [runEvents, roundsAfter]
  | succ n ih =>
    rw [runEvents, ih]
    by_cases hn : 1 ≤ n
    · obtain ⟨tail, htail⟩ := stableSort_roundsAfter n hn
      rw [reviewEvent, selectPrevRound, htail]
      simp only [List.head?]
      rw [roundsAfter, roundsAfter, List.range'_concat]
      rw [List.map_append, markSuperseded, List.map_map]
      congr 1
      · refine List.map_congr_left ?_
        intro k hk
        rw [List.mem_range'_1] at hk
        by_cases hkn : k = n
        · subst hkn
          simp [Function.comp]
        · have hklt : k < n := by omega
          have hklt1 : k < n + 1 := by omega
          simp [Function.comp, hklt, hkn, hklt1]
      · simp
        omega
    · have hn0 : n = 0 := by omega
      subst hn0
      rw [reviewEvent]
      have : selectPrevRound (roundsAfter 0) = none := by
        simp [selectPrevRound, roundsAfter, stableSort]
      rw [this]
      simp [roundsAfter]

/-- C7: across `n` sequential review events on one PR the store holds exactly
rounds `1..n` in creation order; the active round chosen for supersession (the
`sort(desc)[0]` of `review.js`) coincides with the highest-numbered round not
yet superseded (the `trackOutcome` lookup); each round `k < n` carries the
`Superseded` outcome exactly once — recorded at the moment round `k+1` was
created — the final round carries none, so at most one round is un-superseded
at any time. -/
theorem C7_supersession_lifecycle (n : Nat) :
    runEvents n = roundsAfter n ∧
    (1 ≤ n → selectPrevRound (runEvents n) = some ⟨n, []⟩ ∧
      activeRound (runEvents n) = some ⟨n, []⟩) ∧
    (∀ r ∈ runEvents n,
      (r.outcomes.count "Superseded" = if r.number < n then 1 else 0) ∧
      ("Superseded" ∉ r.outcomes → r.number = n)) := by
  refine ⟨runEvents_eq_roundsAfter n, ?_, ?_⟩
  · intro hn
    obtain ⟨tail, htail⟩ := stableSort_roundsAfter n hn
    rw [runEvents_eq_roundsAfter]
    constructor
    · rw [selectPrevRound, htail]
      rfl
    · rw [activeRound, htail]
      simp [List.find?_cons]
  · intro r hr
    rw [runEvents_eq_roundsAfter] at hr
    obtain ⟨k, hk_mem, hmk⟩ := List.mem_map.mp hr
    rw [List.mem_range'_1] at hk_mem
    subst hmk
    by_cases hkn : k < n
    · simp [hkn]
    · simp [hkn]
      omega

theorem C7_supersession_lifecycle_witness :
    (selectPrevRound (runEvents 3) = some ⟨3, []⟩ ∧
      activeRound (runEvents 3) = some ⟨3, []⟩) ∧
    ((⟨1, ["Superseded"]⟩ : RoundRec).outcomes.count "Superseded" =
        if (⟨1, ["Superseded"]⟩ : RoundRec).number < 3 then 1 else 0) ∧
    ("Superseded" ∉ (⟨3, []⟩ : RoundRec).outcomes → (⟨3, []⟩ : RoundRec).number = 3) :=
  ⟨(C7_supersession_lifecycle 3).2.1 (by omega),
   ((C7_supersession_lifecycle 3).2.2 ⟨1, ["Superseded"]⟩ (by decide)).1,
   ((C7_supersession_lifecycle 3).2.2 ⟨3, []⟩ (by decide)).2⟩

/-- C8 (amended): a model response whose text fails JSON parsing (after fence
stripping and bracket extraction) triggers exactly one corrective re-prompt;
if the re-prompt's response also fails to parse — or that call itself throws —
the chunk degrades to the empty comment set, and a parsed array from the
re-prompt is kept; a response that parses to valid JSON that is not an array
degrades directly to the empty set with no re-prompt; in every case the
re-prompt count is at most one and a result is produced — malformed output is
never fatal.  (The claim's "exactly one re-prompt for every non-array
response" fails for valid-JSON non-array responses, which get none.) -/
theorem C8_malformed_response (t : String) (r : Option String) :
    (parseComments t = none → (reviewChunkFlow t r).1 = 1) ∧
    (parseComments t = none → r = none → (reviewChunkFlow t r).2 = []) ∧
    (∀ t2, parseComments t = none → r = some t2 → parseComments t2 = none →
      (reviewChunkFlow t r).2 = []) ∧
    (∀ t2 xs, parseComments t = none → r = some t2 → parseComments t2 = some (.arr xs) →
      (reviewChunkFlow t r).2 = xs) ∧
    (∀ v, parseComments t = some v → isArray v = false → reviewChunkFlow t r = (0, [])) ∧
    (∀ xs, parseComments t = some (.arr xs) → reviewChunkFlow t r = (0, xs)) ∧
    (reviewChunkFlow t r).1 ≤ 1 := by
  refine ⟨?_, ?_, ?_, ?_, ?_, ?_, ?_⟩
  · intro h
    cases r with
    | none => simp [reviewChunkFlow, h]
    | some t2 =>
      cases h2 : parseComments t2 with
      | none => simp [reviewChunkFlow, h, h2]
      | some v => simp [reviewChunkFlow, h, h2]
  · intro h hr
    subst hr
    simp [reviewChunkFlow, h]
  · intro t2 h hr h2
    subst hr
    simp [reviewChunkFlow, h, h2]
  · intro t2 xs h hr h2
    subst hr
    simp [reviewChunkFlow, h, h2, isArray, arrayElems]
  · intro v h hv
    simp [reviewChunkFlow, h, hv]
  · intro xs h
    simp [reviewChunkFlow, h, isArray, arrayElems]
  · cases h : parseComments t with
    | some v => simp [reviewChunkFlow, h]
    | none =>
      cases r with
      | none => simp [reviewChunkFlow, h]
      | some t2 =>
        cases h2 : parseComments t2 with
        | none => simp [reviewChunkFlow, h, h2]
        | some v => simp [reviewChunkFlow, h, h2]

theorem C8_malformed_response_witness :
    ((reviewChunkFlow "garbage" (some "[]")).1 = 1 ∧
      (reviewChunkFlow "garbage" none).2 = [] ∧
      (reviewChunkFlow "garbage" (some "still bad")).2 = [] ∧
      (reviewChunkFlow "garbage" (some "[]")).2 = []) ∧
    reviewChunkFlow "42" (some "[]") = (0, []) ∧
    reviewChunkFlow "[]" (some "whatever") = (0, []) :=
  ⟨⟨(C8_malformed_response "garbage" (some "[]")).1 rfl,
    (C8_malformed_response "garbage" none).2.1 rfl rfl,
    (C8_malformed_response "garbage" (some "still bad")).2.2.1 "still bad" rfl rfl rfl,
    (C8_malformed_response "garbage" (some "[]")).2.2.2.1 "[]" [] rfl rfl rfl⟩,
   (C8_malformed_response "42" (some "[]")).2.2.2.2.1 (Json.num "42") rfl rfl,
   (C8_malformed_response "[]" (some "whatever")).2.2.2.2.2.1 [] rfl⟩

theorem C8_counterexample :
    parseComments "42" = some (Json.num "42") ∧
    isArray (Json.num "42") = false ∧
    (reviewChunkFlow "42" (some "[]")).1 = 0 :=
  ⟨rfl, rfl, rfl⟩

theorem length_le_joinSep (sep : String) (l : List String) (s : String) (hs : s ∈ l) :
    s.length ≤ (joinSep sep l).length := by
  induction l with
  | nil => simp at hs
  | cons x xs ih =>
    cases xs with
    | nil =>
      rcases List.mem_cons.mp hs with h | h
      · rw [h, joinSep]
      · simp at h
    | cons y ys =>
      rw [joinSep]
      rcases List.mem_cons.mp hs with h | h
      · rw [h]
        simp only [String.length_append]
        omega
      · have := ih h
        simp only [String.length_append]
        omega

/-- C6 is a code bug: `buildPreviousFeedbackSection` serializes rounds
oldest-first and breaks out of the loop once the joined text exceeds the
4000-character budget, so the rounds it keeps are always an initial (oldest)
segment of `previousFeedback` and the most recent rounds are the ones dropped
— the opposite of the specified truncate-oldest-first behaviour, and of the
"(earlier rounds truncated)" marker the code itself appends.  Concretely, with
round 1 serializing past 4000 characters and a short round 2 following, only
round 1 is kept. -/
theorem C6_truncation_keeps_oldest :
    (∀ fb lines, ∃ k, (feedbackLoop fb lines).2 = (fb.map FeedbackRound.round).take k) ∧
    (feedbackLoop
      [⟨1, some "aaaaaaa", [⟨"a.js", 1, some "bug", String.mk (List.replicate 4100 'a')⟩]⟩,
       ⟨2, some "bbbbbbb", [⟨"b.js", 2, some "bug", "short"⟩]⟩] feedbackIntro).2 = [1] ∧
    (feedbackLoop
      [⟨1, some "aaaaaaa", [⟨"a.js", 1, some "bug", String.mk (List.replicate 4100 'a')⟩]⟩,
       ⟨2, some "bbbbbbb", [⟨"b.js", 2, some "bug", "short"⟩]⟩]
        feedbackIntro).1.getLast? = some "(earlier rounds truncated)" := by
  have hbody : (String.mk (List.replicate 4100 'a')).length = 4100 := by
    simp only [String.length, List.length_replicate]
  have hce : commentLine ⟨"a.js", 1, some "bug", String.mk (List.replicate 4100 'a')⟩ =
      "- `" ++ "a.js" ++ ":" ++ toString (1 : Nat) ++ "` (" ++ "bug" ++ "): \"" ++
        String.mk (List.replicate 4100 'a') ++ "\"" := rfl
  have hcmt : 4000 <
      (commentLine ⟨"a.js", 1, some "bug", String.mk (List.replicate 4100 'a')⟩).length := by
    rw [hce]
    simp only [String.length_append, hbody]
    omega
  have hcond : maxPrevFeedbackChars <
      (joinSep "\n" (feedbackIntro ++
        [roundHeader ⟨1, some "aaaaaaa",
          [⟨"a.js", 1, some "bug", String.mk (List.replicate 4100 'a')⟩]⟩] ++
        [commentLine ⟨"a.js", 1, some "bug", String.mk (List.replicate 4100 'a')⟩] ++
        [""])).length := by
    refine lt_of_lt_of_le hcmt
      (length_le_joinSep "\n" _
        (commentLine ⟨"a.js", 1, some "bug", String.mk (List.replicate 4100 'a')⟩) ?_)
    simp
  refine ⟨?_, ?_, ?_⟩
  · intro fb
    induction fb with
    | nil => intro lines; exact ⟨0, rfl⟩
    | cons r rest ih =>
      intro lines
      by_cases h : maxPrevFeedbackChars <
          (joinSep "\n" (lines ++ [roundHeader r] ++ List.map commentLine r.comments
            ++ [""])).length
      · refine ⟨1, ?_⟩
        simp only [feedbackLoop]
        rw [if_pos h]
        simp
      · obtain ⟨k, hk⟩ := ih (lines ++ [roundHeader r] ++ List.map commentLine r.comments ++ [""])
        refine ⟨k + 1, ?_⟩
        simp only [feedbackLoop]
        rw [if_neg h]
        simpa using hk
  · simp only [feedbackLoop, List.map_cons, List.map_nil]
    rw [if_pos hcond]
  · simp only [feedbackLoop, List.map_cons, List.map_nil]
    rw [if_pos hcond, List.getLast?_concat]

theorem chunkCost_append (mTok : Nat) (l : List (FileCost × Bool)) (e : FileCost × Bool) :
    chunkCost mTok (l ++ [e]) = chunkCost mTok l + entryTokens e := by
  simp [chunkCost, List.sum_append]
  omega

theorem packLoop_budget (budget : Int) (mTok : Nat) :
    ∀ (costs : List FileCost) (cur : List (FileCost × Bool)) (curTok : Nat),
      curTok = chunkCost mTok cur →
      (cur ≠ [] → (curTok : Int) ≤ budget) →
      ∀ ch ∈ (packLoop budget mTok costs cur curTok).1,
        ch ≠ [] ∧ (chunkCost mTok ch : Int) ≤ budget := by
  intro costs
  induction costs with
  | nil =>
    intro cur curTok hc hb ch hch
    simp only [packLoop] at hch
    by_cases he : cur.isEmpty
    · simp [he] at hch
    · simp [he] at hch
      subst hch
      refine ⟨by simpa using he, ?_⟩
      rw [← hc]
      exact hb (by simpa using he)
  | cons c rest ih =>
    intro cur curTok hc hb ch hch
    by_cases h1 : (curTok : Int) + c.fullTokens ≤ budget
    · simp only [packLoop, if_pos h1] at hch
      refine ih _ _ ?_ ?_ ch hch
      · rw [chunkCost_append, ← hc]
        simp [entryTokens]
      · intro _
        push_cast
        exact h1
    · by_cases h2 : (curTok : Int) + c.diffTokens ≤ budget
      · simp only [packLoop, if_neg h1, if_pos h2] at hch
        refine ih _ _ ?_ ?_ ch hch
        · rw [chunkCost_append, ← hc]
          simp [entryTokens]
        · intro _
          push_cast
          exact h2
      · by_cases h3 : cur.isEmpty
        · simp only [packLoop, if_neg h1, if_neg h2, h3, if_true, List.nil_append] at hch
          exact ih cur curTok hc hb ch hch
        · by_cases h4 : (mTok : Int) + c.fullTokens ≤ budget
          · simp only [packLoop, if_neg h1, if_neg h2, h3, Bool.false_eq_true, if_false,
              if_pos h4] at hch
            rcases List.mem_append.mp hch with hch1 | hch2
            · rcases List.mem_singleton.mp hch1 with rfl
              refine ⟨by simpa using h3, ?_⟩
              rw [← hc]
              exact hb (by simpa using h3)
            · refine ih _ _ ?_ ?_ ch hch2
              · simp [chunkCost, entryTokens]
              · intro _
                push_cast
                exact h4
          · by_cases h5 : (mTok : Int) + c.diffTokens ≤ budget
            · simp only [packLoop, if_neg h1, if_neg h2, h3, Bool.false_eq_true, if_false,
                if_neg h4, if_pos h5] at hch
              rcases List.mem_append.mp hch with hch1 | hch2
              · rcases List.mem_singleton.mp hch1 with rfl
                refine ⟨by simpa using h3, ?_⟩
                rw [← hc]
                exact hb (by simpa using h3)
              · refine ih _ _ ?_ ?_ ch hch2
                · simp [chunkCost, entryTokens]
                · intro _
                  push_cast
                  exact h5
            · simp only [packLoop, if_neg h1, if_neg h2, h3, Bool.false_eq_true, if_false,
                if_neg h4, if_neg h5] at hch
              rcases List.mem_append.mp hch with hch1 | hch2
              · rcases List.mem_singleton.mp hch1 with rfl
                refine ⟨by simpa using h3, ?_⟩
                rw [← hc]
                exact hb (by simpa using h3)
              · refine ih _ _ ?_ ?_ ch hch2
                · simp [chunkCost]
                · intro h
                  exact absurd rfl h

theorem mkCosts_map_idx (l : List ChangedFile) :
    (mkCosts l).map FileCost.idx = List.range l.length := by
  have h := List.enum_map_fst l
  simp only [mkCosts, List.map_map]
  exact h

theorem packLoop_count_le (budget : Int) (mTok : Nat) (i : Nat) :
    ∀ (costs : List FileCost) (cur : List (FileCost × Bool)) (curTok : Nat),
      (((packLoop budget mTok costs cur curTok).1.flatten.map (fun e => e.1.idx)).count i) ≤
        ((cur.map (fun e => e.1.idx)).count i) + ((costs.map FileCost.idx).count i) := by
  intro costs
  induction costs with
  | nil =>
    intro cur curTok
    simp only [packLoop]
    by_cases he : cur.isEmpty
    · simp [he]
    · simp [he]
  | cons c rest ih =>
    intro cur curTok
    by_cases h1 : (curTok : Int) + c.fullTokens ≤ budget
    · simp only [packLoop, if_pos h1]
      have := ih (cur ++ [(c, true)]) (curTok + c.fullTokens)
      simp only [List.map_append, List.count_append, List.map_cons, List.map_nil,
        List.count_cons, List.count_nil] at this ⊢
      omega
    · by_cases h2 : (curTok : Int) + c.diffTokens ≤ budget
      · simp only [packLoop, if_neg h1, if_pos h2]
        have := ih (cur ++ [(c, false)]) (curTok + c.diffTokens)
        simp only [List.map_append, List.count_append, List.map_cons, List.map_nil,
          List.count_cons, List.count_nil] at this ⊢
        omega
      · by_cases h3 : cur.isEmpty
        · simp only [packLoop, if_neg h1, if_neg h2, h3, if_true, List.nil_append]
          have := ih cur curTok
          simp only [List.map_cons, List.count_cons] at this ⊢
          omega
        · by_cases h4 : (mTok : Int) + c.fullTokens ≤ budget
          · simp only [packLoop, if_neg h1, if_neg h2, h3, Bool.false_eq_true, if_false,
              if_pos h4, List.singleton_append, List.flatten_cons]
            have := ih ([] ++ [(c, true)]) (mTok + c.fullTokens)
            simp only [List.map_append, List.count_append, List.map_cons, List.map_nil,
              List.count_cons, List.count_nil, List.nil_append] at this ⊢
            omega
          · by_cases h5 : (mTok : Int) + c.diffTokens ≤ budget
            · simp only [packLoop, if_neg h1, if_neg h2, h3, Bool.false_eq_true, if_false,
                if_neg h4, if_pos h5, List.singleton_append, List.flatten_cons]
              have := ih ([] ++ [(c, false)]) (mTok + c.diffTokens)
              simp only [List.map_append, List.count_append, List.map_cons, List.map_nil,
                List.count_cons, List.count_nil, List.nil_append] at this ⊢
              omega
            · simp only [packLoop, if_neg h1, if_neg h2, h3, Bool.false_eq_true, if_false,
                if_neg h4, if_neg h5, List.singleton_append, List.flatten_cons]
              have := ih [] mTok
              simp only [List.map_append, List.count_append, List.map_cons, List.map_nil,
                List.count_cons, List.count_nil, List.nil_append] at this ⊢
              omega

theorem packLoop_cover (budget : Int) (mTok : Nat) (i : Nat) :
    ∀ (costs : List FileCost) (cur : List (FileCost × Bool)) (curTok : Nat),
      (i ∈ cur.map (fun e => e.1.idx) ∨ i ∈ costs.map FileCost.idx) →
      i ∈ (packLoop budget mTok costs cur curTok).1.flatten.map (fun e => e.1.idx) ∨
        i ∈ (packLoop budget mTok costs cur curTok).2 := by
  intro costs
  induction costs with
  | nil =>
    intro cur curTok hi
    rcases hi with hi | hi
    · left
      simp only [packLoop]
      by_cases he : cur.isEmpty
      · rw [List.isEmpty_iff] at he
        subst he
        simp at hi
      · simp only [he, Bool.false_eq_true, if_false, List.flatten_cons, List.flatten_nil,
          List.append_nil]
        exact hi
    · simp at hi
  | cons c rest ih =>
    intro cur curTok hi
    have hsplit : i ∈ cur.map (fun e => e.1.idx) ∨ i = c.idx ∨ i ∈ rest.map FileCost.idx := by
      rcases hi with hi | hi
      · exact Or.inl hi
      · rcases List.mem_cons.mp hi with hi2 | hi2
        · exact Or.inr (Or.inl hi2)
        · exact Or.inr (Or.inr hi2)
    by_cases h1 : (curTok : Int) + c.fullTokens ≤ budget
    · simp only [packLoop, if_pos h1]
      refine ih (cur ++ [(c, true)]) (curTok + c.fullTokens) ?_
      rcases hsplit with h | h | h
      · exact Or.inl (by simp [h])
      · exact Or.inl (by simp [h])
      · exact Or.inr h
    · by_cases h2 : (curTok : Int) + c.diffTokens ≤ budget
      · simp only [packLoop, if_neg h1, if_pos h2]
        have := ih (cur ++ [(c, false)]) (curTok + c.diffTokens) (by
          rcases hsplit with h | h | h
          · exact Or.inl (by simp [h])
          · exact Or.inl (by simp [h])
          · exact Or.inr h)
        rcases this with h | h
        · exact Or.inl h
        · right
          simp [h]
      · by_cases h3 : cur.isEmpty
        · rw [List.isEmpty_iff] at h3
          subst h3
          simp only [packLoop, if_neg h1, if_neg h2, List.isEmpty_nil, if_true,
            List.nil_append]
          rcases hsplit with h | h | h
          · simp at h
          · right
            exact List.mem_cons.mpr (Or.inl h)
          · rcases ih [] curTok (Or.inr h) with hh | hh
            · exact Or.inl hh
            · right
              exact List.mem_cons.mpr (Or.inr hh)
        · by_cases h4 : (mTok : Int) + c.fullTokens ≤ budget
          · simp only [packLoop, if_neg h1, if_neg h2, h3, Bool.false_eq_true, if_false,
              if_pos h4, List.singleton_append, List.flatten_cons]
            rcases hsplit with h | h | h
            · left
              simp only [List.map_append]
              exact List.mem_append.mpr (Or.inl h)
            · have := ih ([] ++ [(c, true)]) (mTok + c.fullTokens) (Or.inl (by simp [h]))
              rcases this with hh | hh
              · left
                simp only [List.map_append]
                exact List.mem_append.mpr (Or.inr hh)
              · exact Or.inr hh
            · have := ih ([] ++ [(c, true)]) (mTok + c.fullTokens) (Or.inr h)
              rcases this with hh | hh
              · left
                simp only [List.map_append]
                exact List.mem_append.mpr (Or.inr hh)
              · exact Or.inr hh
          · by_cases h5 : (mTok : Int) + c.diffTokens ≤ budget
            · simp only [packLoop, if_neg h1, if_neg h2, h3, Bool.false_eq_true, if_false,
                if_neg h4, if_pos h5, List.singleton_append, List.flatten_cons]
              rcases hsplit with h | h | h
              · left
                simp only [List.map_append]
                exact List.mem_append.mpr (Or.inl h)
              · have := ih ([] ++ [(c, false)]) (mTok + c.diffTokens) (Or.inl (by simp [h]))
                rcases this with hh | hh
                · left
                  simp only [List.map_append]
                  exact List.mem_append.mpr (Or.inr hh)
                · right
                  exact List.mem_append.mpr (Or.inr hh)
              · have := ih ([] ++ [(c, false)]) (mTok + c.diffTokens) (Or.inr h)
                rcases this with hh | hh
                · left
                  simp only [List.map_append]
                  exact List.mem_append.mpr (Or.inr hh)
                · right
                  exact List.mem_append.mpr (Or.inr hh)
            · simp only [packLoop, if_neg h1, if_neg h2, h3, Bool.false_eq_true, if_false,
                if_neg h4, if_neg h5, List.singleton_append, List.flatten_cons]
              rcases hsplit with h | h | h
              · left
                simp only [List.map_append]
                exact List.mem_append.mpr (Or.inl h)
              · right
                simp [h]
              · have := ih [] mTok (Or.inr h)
                rcases this with hh | hh
                · left
                  simp only [List.map_append]
                  exact List.mem_append.mpr (Or.inr hh)
                · right
                  simp [hh]

theorem packLoop_eq_specPack (budget : Int) (mTok : Nat) :
    ∀ (costs : List FileCost) (cur : List (FileCost × Bool)) (curTok : Nat),
      curTok = chunkCost mTok cur →
      packLoop budget mTok costs cur curTok = specPack budget mTok costs cur := by
  intro costs
  induction costs with
  | nil =>
    intro cur curTok hc
    simp only [packLoop, specPack]
    by_cases he : cur = []
    · subst he
      simp
    · simp [he, List.isEmpty_iff]
  | cons c rest ih =>
    intro cur curTok hc
    have efull : (chunkCost mTok (cur ++ [(c, true)]) : Int) = (curTok : Int) + c.fullTokens := by
      rw [chunkCost_append, ← hc]
      push_cast [entryTokens]
      simp
    have ediff : (chunkCost mTok (cur ++ [(c, false)]) : Int) =
        (curTok : Int) + c.diffTokens := by
      rw [chunkCost_append, ← hc]
      push_cast [entryTokens]
      simp
    have efull1 : (chunkCost mTok [(c, true)] : Int) = (mTok : Int) + c.fullTokens := by
      simp [chunkCost, entryTokens]
    have ediff1 : (chunkCost mTok [(c, false)] : Int) = (mTok : Int) + c.diffTokens := by
      simp [chunkCost, entryTokens]
    by_cases h1 : (curTok : Int) + c.fullTokens ≤ budget
    · have h1s : (chunkCost mTok (cur ++ [(c, true)]) : Int) ≤ budget := by
        rw [efull]
        exact h1
      simp only [packLoop, specPack, if_pos h1, if_pos h1s]
      exact ih _ _ (by rw [chunkCost_append, ← hc]; simp [entryTokens])
    · have h1s : ¬(chunkCost mTok (cur ++ [(c, true)]) : Int) ≤ budget := by
        rw [efull]
        exact h1
      by_cases h2 : (curTok : Int) + c.diffTokens ≤ budget
      · have h2s : (chunkCost mTok (cur ++ [(c, false)]) : Int) ≤ budget := by
          rw [ediff]
          exact h2
        simp only [packLoop, specPack, if_neg h1, if_neg h1s, if_pos h2, if_pos h2s]
        rw [ih _ _ (by rw [chunkCost_append, ← hc]; simp [entryTokens])]
      · have h2s : ¬(chunkCost mTok (cur ++ [(c, false)]) : Int) ≤ budget := by
          rw [ediff]
          exact h2
        by_cases h3 : cur = []
        · subst h3
          have hcm : curTok = mTok := by
            simpa [chunkCost] using hc
          rw [hcm] at h1 h2 ⊢
          have h4s : ¬(chunkCost mTok [(c, true)] : Int) ≤ budget := by
            rw [efull1]
            exact h1
          have h5s : ¬(chunkCost mTok [(c, false)] : Int) ≤ budget := by
            rw [ediff1]
            exact h2
          simp only [packLoop, specPack, if_neg h1, if_neg h4s, if_neg h2, if_neg h5s,
            List.isEmpty_nil, if_true, List.nil_append]
          rw [ih [] mTok (by simp [chunkCost])]
        · have h3e : ¬cur.isEmpty = true := by
            simpa [List.isEmpty_iff] using h3
          by_cases h4 : (mTok : Int) + c.fullTokens ≤ budget
          · have h4s : (chunkCost mTok [(c, true)] : Int) ≤ budget := by
              rw [efull1]
              exact h4
            simp only [packLoop, specPack, if_neg h1, if_neg h1s, if_neg h2, if_neg h2s,
              h3e, Bool.false_eq_true, if_false, if_neg h3, if_pos h4, if_pos h4s,
              List.nil_append]
            rw [ih [(c, true)] (mTok + c.fullTokens) (by simp [chunkCost, entryTokens])]
          · have h4s : ¬(chunkCost mTok [(c, true)] : Int) ≤ budget := by
              rw [efull1]
              exact h4
            by_cases h5 : (mTok : Int) + c.diffTokens ≤ budget
            · have h5s : (chunkCost mTok [(c, false)] : Int) ≤ budget := by
                rw [ediff1]
                exact h5
              simp only [packLoop, specPack, if_neg h1, if_neg h1s, if_neg h2, if_neg h2s,
                h3e, Bool.false_eq_true, if_false, if_neg h3, if_neg h4, if_neg h4s,
                if_pos h5, if_pos h5s, List.nil_append]
              rw [ih [(c, false)] (mTok + c.diffTokens) (by simp [chunkCost, entryTokens])]
            · have h5s : ¬(chunkCost mTok [(c, false)] : Int) ≤ budget := by
                rw [ediff1]
                exact h5
              simp only [packLoop, specPack, if_neg h1, if_neg h1s, if_neg h2, if_neg h2s,
                h3e, Bool.false_eq_true, if_false, if_neg h3, if_neg h4, if_neg h4s,
                if_neg h5, if_neg h5s, List.nil_append]
              rw [ih [] mTok (by simp [chunkCost])]

/-- C3 (amended): in `buildContext`'s output, every chunk that contains at
least one file section has accounted token cost — the manifest estimate plus
its section estimates, exactly the `currentTokens` bookkeeping of the source —
within the effective budget `200000 − systemTokens − 4000`; every input file
contributes a section to at most one chunk (never two), and every file either
contributes a section or has its index counted in the truncation tally whose
length is `truncatedCount`; the sorted file list is a permutation of the
input.  (The claim's unconditional bound fails for the manifest-plus-
placeholder chunk emitted when no file fits, which can exceed the budget —
see the counterexample.) -/
theorem C3_chunk_invariants (files : List ChangedFile) (systemTokens : Nat) :
    (buildContext files systemTokens =
      if ((packResult files systemTokens).1.map (fun ch =>
            renderChunk (buildManifest files) (ch.map entryText))).isEmpty
      then ([buildManifest files ++ "(all files too large for review)"],
        (packResult files systemTokens).2.length)
      else ((packResult files systemTokens).1.map (fun ch =>
            renderChunk (buildManifest files) (ch.map entryText)),
        (packResult files systemTokens).2.length)) ∧
    (∀ ch ∈ (packResult files systemTokens).1,
      ch ≠ [] ∧
        (chunkCost (estimateTokens (buildManifest files)) ch : Int) ≤
          (200000 : Int) - systemTokens - 4000) ∧
    (∀ i, (((packResult files systemTokens).1.flatten.map (fun e => e.1.idx)).count i) ≤ 1) ∧
    (∀ i, i < (sortByDiff files).length →
      i ∈ (packResult files systemTokens).1.flatten.map (fun e => e.1.idx) ∨
        i ∈ (packResult files systemTokens).2) ∧
    (sortByDiff files).Perm files := by
  refine ⟨rfl, ?_, ?_, ?_, stableSort_perm _ _⟩
  · intro ch hch
    simp only [packResult] at hch
    exact packLoop_budget _ _ _ [] _ (by simp [chunkCost]) (fun h => absurd rfl h) ch hch
  · intro i
    simp only [packResult]
    have h := packLoop_count_le ((200000 : Int) - systemTokens - 4000)
      (estimateTokens (buildManifest files)) i (mkCosts (sortByDiff files)) []
      (estimateTokens (buildManifest files))
    rw [mkCosts_map_idx] at h
    simp only [List.map_nil, List.count_nil, Nat.zero_add] at h
    exact le_trans h (List.nodup_iff_count_le_one.mp (List.nodup_range _) i)
  · intro i hi
    simp only [packResult]
    exact packLoop_cover ((200000 : Int) - systemTokens - 4000)
      (estimateTokens (buildManifest files)) i (mkCosts (sortByDiff files)) []
      (estimateTokens (buildManifest files))
      (Or.inr (by rw [mkCosts_map_idx]; exact List.mem_range.mpr hi))

theorem C3_chunk_invariants_witness :
    (([((⟨0, ⟨"a", "m", none, none⟩,
          buildFileSection ⟨"a", "m", none, none⟩ false,
          buildFileSection ⟨"a", "m", none, none⟩ false,
          estimateTokens (buildFileSection ⟨"a", "m", none, none⟩ false),
          estimateTokens (buildFileSection ⟨"a", "m", none, none⟩ false)⟩ : FileCost),
        true)] : List (FileCost × Bool)) ≠ [] ∧
      (chunkCost (estimateTokens (buildManifest [⟨"a", "m", none, none⟩]))
        [((⟨0, ⟨"a", "m", none, none⟩,
          buildFileSection ⟨"a", "m", none, none⟩ false,
          buildFileSection ⟨"a", "m", none, none⟩ false,
          estimateTokens (buildFileSection ⟨"a", "m", none, none⟩ false),
          estimateTokens (buildFileSection ⟨"a", "m", none, none⟩ false)⟩ : FileCost),
        true)] : Int) ≤ (200000 : Int) - 4000 - 4000) ∧
    (0 ∈ (packResult [⟨"a", "m", none, none⟩] 4000).1.flatten.map (fun e => e.1.idx) ∨
      0 ∈ (packResult [⟨"a", "m", none, none⟩] 4000).2) :=
  ⟨(C3_chunk_invariants [⟨"a", "m", none, none⟩] 4000).2.1 _ (by decide),
   (C3_chunk_invariants [⟨"a", "m", none, none⟩] 4000).2.2.2.1 0 (by decide)⟩

theorem C3_counterexample :
    buildContext [] 200000 =
      ([buildManifest [] ++ "(all files too large for review)"], 0) ∧
    ((200000 : Int) - 200000 - 4000) <
      (chunkCost (estimateTokens (buildManifest [])) [] : Int) := by
  exact ⟨by decide, by decide⟩

/-- C4: `buildContext` processes files in ascending order of estimated
diff-token size — the sorted list is an ascending-by-estimate permutation of
the input — and the packing loop follows exactly the specified fallback
sequence (full-then-diff-only in the current chunk, close and retry in a
fresh chunk, drop and count truncated), proved by refinement against
`specPack`/`specBuildContext`, definitions written from the specification's
words; and when no file fits anywhere the output is the single
manifest-plus-placeholder chunk. -/
theorem C4_order_and_fallback (files : List ChangedFile) (systemTokens : Nat) :
    buildContext files systemTokens = specBuildContext files systemTokens ∧
    List.Pairwise (fun a b => diffSizeKey a ≤ diffSizeKey b) (sortByDiff files) ∧
    (sortByDiff files).Perm files ∧
    ((packResult files systemTokens).1 = [] →
      buildContext files systemTokens =
        ([buildManifest files ++ "(all files too large for review)"],
          (packResult files systemTokens).2.length)) := by
  refine ⟨?_, ?_, stableSort_perm _ _, ?_⟩
  · simp only [buildContext, specBuildContext]
    rw [← packLoop_eq_specPack ((200000 : Int) - systemTokens - 4000)
      (estimateTokens (buildManifest files)) (mkCosts (sortByDiff files)) []
      (estimateTokens (buildManifest files)) (by simp [chunkCost])]
    by_cases h : (packLoop ((200000 : Int) - systemTokens - 4000)
        (estimateTokens (buildManifest files)) (mkCosts (sortByDiff files)) []
        (estimateTokens (buildManifest files))).1 = []
    · simp [h]
    · simp [h, List.isEmpty_iff, List.map_eq_nil_iff]
  · refine stableSort_pairwise _ _ ?_ ?_ ?_ files
    · intro x y h
      simp only [decide_eq_false_iff_not, Nat.not_lt] at h
      exact h
    · intro x y h
      simp only [decide_eq_true_eq] at h
      omega
    · intro x y z hxy hyz
      omega
  · intro h
    simp only [packResult] at h
    simp only [buildContext, packResult, h]
    simp

theorem C4_order_and_fallback_witness :
    buildContext [] 0 =
      ([buildManifest [] ++ "(all files too large for review)"],
        (packResult [] 0).2.length) :=
  (C4_order_and_fallback [] 0).2.2.2 (by decide)

end WarpReview
